import Mathlib

/-!
Shallow embedding of the okane-skills scripts (`scripts/okane_analyzer.py`,
`scripts/okane_editor.py`).

Dates are modelled as `String`s compared lexicographically, which is exactly
Python's `<` / `<=` on strings; the comparison is implemented here as a
structurally recursive boolean function `strLt` and proved equivalent to
Mathlib's linear order on `String`, so that concrete instances evaluate with
`decide` while abstract reasoning can use order lemmas.  Transaction types are
modelled as `String`s, exactly as stored in the JSON (`"income"` /
`"expense"`); the code treats anything other than `"income"` as an expense,
so claims that speak about income/expense sums carry a well-typedness
hypothesis expressing the schema invariant.  Amounts are `Int` (Python
integers).  Fallible operations return `Option`s, and in-place mutation of
the transaction list is modelled by returning the new ledger value.
-/

namespace Okane

/-- Lexicographic strict comparison on character lists (Python's `<` on
strings, viewed as their character sequences). -/
def listLtB : List Char → List Char → Bool
  | [], [] => false
  | [], _ :: _ => true
  | _ :: _, [] => false
  | a :: as, b :: bs => if a < b then true else if b < a then false else listLtB as bs

/-- Python's `a < b` on strings. -/
def strLt (a b : String) : Bool := listLtB a.data b.data

/-- Python's `a <= b` on strings (for the total lexicographic order,
`a <= b` iff `¬ (b < a)`). -/
def strLe (a b : String) : Bool := !(strLt b a)

theorem listLtB_iff : ∀ as bs : List Char, listLtB as bs = true ↔ as < bs
  | [], [] => by
      simp only [listLtB, Bool.false_eq_true, false_iff]
      intro h; cases h
  | [], _ :: _ => by
      simp only [listLtB, true_iff]
      exact List.Lex.nil
  | _ :: _, [] => by
      simp only [listLtB, Bool.false_eq_true, false_iff]
      intro h; cases h
  | a :: as, b :: bs => by
      simp only [listLtB]
      rcases lt_trichotomy a b with hab | hab | hab
      · simp only [if_pos hab, true_iff]
        exact List.Lex.rel hab
      · subst hab
        rw [if_neg (lt_irrefl a), if_neg (lt_irrefl a), listLtB_iff as bs]
        constructor
        · exact fun h => List.Lex.cons h
        · intro h
          cases h with
          | cons h => exact h
          | rel h => exact absurd h (lt_irrefl a)
      · rw [if_neg (asymm hab), if_pos hab]
        simp only [Bool.false_eq_true, false_iff]
        intro h
        cases h with
        | cons h => exact absurd hab (lt_irrefl a)
        | rel h => exact absurd hab (asymm h)

theorem strLt_iff (a b : String) : strLt a b = true ↔ a < b := by
  rw [strLt, listLtB_iff, String.lt_iff_toList_lt]
  rfl

theorem strLe_iff (a b : String) : strLe a b = true ↔ a ≤ b := by
  rw [strLe, Bool.not_eq_true', ← not_lt (α := String)]
  constructor
  · intro h hb
    rw [← strLt_iff] at hb
    simp [hb] at h
  · intro h
    rw [Bool.eq_false_iff]
    intro hb
    exact h ((strLt_iff b a).mp hb)

theorem strLe_false_iff (a b : String) : strLe a b = false ↔ b < a := by
  rw [← strLt_iff]
  simp [strLe]

/-- A transaction record, as stored in the JSON ledger. -/
structure Transaction where
  id : String
  date : String
  txType : String
  amount : Int
  description : String
deriving DecidableEq, Repr

/-- The ledger document.  `initialBalance` is optional in the JSON
(`data.get('initialBalance', 0)`), as are the compression flags. -/
structure Ledger where
  initialBalance : Option Int
  transactions : List Transaction
  compressed : Option Bool
  compressedAt : Option String
deriving DecidableEq, Repr

/-- Signed value of a transaction: the code adds the amount when
`t['type'] == 'income'` and subtracts it otherwise. -/
def signedAmount (t : Transaction) : Int :=
  if t.txType = "income" then t.amount else -t.amount

/-- `get_balance_at_date` from `okane_analyzer.py`: fold over all transactions
with `t['date'] <= target_date`, adding for income, subtracting otherwise,
starting from `initialBalance` (default 0). -/
def get_balance_at_date (data : Ledger) (target_date : String) : Int :=
  data.transactions.foldl
    (fun balance t =>
      if strLe t.date target_date then
        if t.txType = "income" then balance + t.amount else balance - t.amount
      else balance)
    (data.initialBalance.getD 0)

/-- Sum of the amounts of the transactions of a list selected by `p`. -/
def sumBy (p : Transaction → Bool) (l : List Transaction) : Int :=
  ((l.filter p).map Transaction.amount).sum

/-- Sum of the amounts of the income transactions of a list. -/
def totalIncome (l : List Transaction) : Int :=
  sumBy (fun t => t.txType == "income") l

/-- Sum of the amounts of the expense transactions of a list. -/
def totalExpense (l : List Transaction) : Int :=
  sumBy (fun t => t.txType == "expense") l

theorem sumBy_nil (p : Transaction → Bool) : sumBy p [] = 0 := rfl

theorem sumBy_cons (p : Transaction → Bool) (t : Transaction) (l : List Transaction) :
    sumBy p (t :: l) = (if p t then t.amount else 0) + sumBy p l := by
  cases h : p t <;> simp [sumBy, List.filter_cons, h]

theorem sumBy_append (p : Transaction → Bool) (l₁ l₂ : List Transaction) :
    sumBy p (l₁ ++ l₂) = sumBy p l₁ + sumBy p l₂ := by
  induction l₁ with
  | nil => simp [sumBy_nil]
  | cons t l ih => rw [List.cons_append, sumBy_cons, sumBy_cons, ih]; ring

theorem sumBy_nonneg (p : Transaction → Bool) (l : List Transaction)
    (h : ∀ t ∈ l, 0 ≤ t.amount) : 0 ≤ sumBy p l := by
  induction l with
  | nil => simp [sumBy_nil]
  | cons t l ih =>
      rw [sumBy_cons]
      have h1 : 0 ≤ t.amount := h t (List.mem_cons_self t l)
      have h2 : 0 ≤ sumBy p l := ih fun u hu => h u (List.mem_cons_of_mem t hu)
      cases hp : p t <;> simp <;> omega

/-- Every transaction is typed `"income"` or `"expense"` (the data-model
invariant of the ledger schema). -/
abbrev wellTyped (l : List Transaction) : Prop :=
  ∀ t ∈ l, t.txType = "income" ∨ t.txType = "expense"

/-- The concrete example ledger of the spec:
`{initialBalance: 1000, transactions: [{2026-01-01, income, 5000}, {2026-01-10, expense, 3000}]}`. -/
def exampleLedger : Ledger :=
  { initialBalance := some 1000
    transactions :=
      [ { id := "t1", date := "2026-01-01", txType := "income", amount := 5000,
          description := "salary" }
      , { id := "t2", date := "2026-01-10", txType := "expense", amount := 3000,
          description := "rent" } ]
    compressed := none
    compressedAt := none }

theorem balance_foldl (d : String) :
    ∀ (l : List Transaction) (b : Int), wellTyped l →
      l.foldl
        (fun balance t =>
          if strLe t.date d then
            if t.txType = "income" then balance + t.amount else balance - t.amount
          else balance) b
      = b + totalIncome (l.filter fun t => strLe t.date d)
          - totalExpense (l.filter fun t => strLe t.date d)
  | [], b, _ => by simp [totalIncome, totalExpense, sumBy_nil]
  | t :: l, b, hw => by
      have hwl : wellTyped l := fun u hu => hw u (List.mem_cons_of_mem t hu)
      have ht := hw t (List.mem_cons_self t l)
      rw [List.foldl_cons, balance_foldl d l _ hwl]
      cases hle : strLe t.date d
      · simp only [List.filter_cons, hle, Bool.false_eq_true, if_neg, ite_false]
      · simp only [List.filter_cons, hle, ite_true]
        unfold totalIncome totalExpense
        rw [sumBy_cons, sumBy_cons]
        rcases ht with h | h <;> simp [h] <;> omega

/-- C1: for every well-typed ledger and date string `d`, `get_balance_at_date`
returns the initial balance (default 0) plus the income sum minus the expense
sum over the transactions dated `<= d`; on the example ledger it returns 6000
at 2026-01-05 and 3000 at 2026-01-15. -/
theorem claim_C1 (data : Ledger) (d : String) (hw : wellTyped data.transactions) :
    (get_balance_at_date data d
      = data.initialBalance.getD 0
        + totalIncome (data.transactions.filter fun t => strLe t.date d)
        - totalExpense (data.transactions.filter fun t => strLe t.date d))
    ∧ get_balance_at_date exampleLedger "2026-01-05" = 6000
    ∧ get_balance_at_date exampleLedger "2026-01-15" = 3000 :=
  ⟨balance_foldl d data.transactions _ hw, by decide, by decide⟩

theorem claim_C1_witness :
    get_balance_at_date exampleLedger "2026-01-15"
      = exampleLedger.initialBalance.getD 0
        + totalIncome (exampleLedger.transactions.filter fun t => strLe t.date "2026-01-15")
        - totalExpense (exampleLedger.transactions.filter fun t => strLe t.date "2026-01-15") :=
  (claim_C1 exampleLedger "2026-01-15" (by decide)).1

theorem sumBy_window (p : Transaction → Bool) (d1 d2 : String) (h12 : strLe d1 d2 = true) :
    ∀ l : List Transaction,
      sumBy p (l.filter fun t => strLe t.date d2)
        = sumBy p (l.filter fun t => strLe t.date d1)
          + sumBy p (l.filter fun t => strLt d1 t.date && strLe t.date d2)
  | [] => by simp [sumBy_nil]
  | t :: l => by
      have ih := sumBy_window p d1 d2 h12 l
      rw [strLe_iff] at h12
      cases h1 : strLe t.date d1
      · have h1' : d1 < t.date := (strLe_false_iff t.date d1).mp h1
        have h1'' : strLt d1 t.date = true := (strLt_iff d1 t.date).mpr h1'
        cases h2 : strLe t.date d2 <;>
          simp [List.filter_cons, h1, h1'', h2, sumBy_cons] <;> omega
      · have h1' : t.date ≤ d1 := (strLe_iff t.date d1).mp h1
        have h2 : strLe t.date d2 = true := (strLe_iff t.date d2).mpr (le_trans h1' h12)
        have h3 : strLt d1 t.date = false := by
          rw [Bool.eq_false_iff]
          intro hc
          exact absurd ((strLt_iff d1 t.date).mp hc) (not_lt.mpr h1')
        simp [List.filter_cons, h1, h2, h3, sumBy_cons]
        omega

/-- C2: for every well-typed ledger and dates `d1 <= d2`, the balance
difference `balanceAt d2 - balanceAt d1` equals the signed sum (income minus
expense) of exactly the transactions with `d1 < date <= d2`. -/
theorem claim_C2 (data : Ledger) (d1 d2 : String) (hw : wellTyped data.transactions)
    (h12 : strLe d1 d2 = true) :
    get_balance_at_date data d2 - get_balance_at_date data d1
      = totalIncome (data.transactions.filter fun t => strLt d1 t.date && strLe t.date d2)
        - totalExpense (data.transactions.filter fun t => strLt d1 t.date && strLe t.date d2) := by
  have e1 := (claim_C1 data d1 hw).1
  have e2 := (claim_C1 data d2 hw).1
  have wi := sumBy_window (fun t => t.txType == "income") d1 d2 h12 data.transactions
  have we := sumBy_window (fun t => t.txType == "expense") d1 d2 h12 data.transactions
  unfold totalIncome totalExpense at *
  omega

theorem claim_C2_witness :
    get_balance_at_date exampleLedger "2026-01-15"
        - get_balance_at_date exampleLedger "2026-01-05"
      = totalIncome (exampleLedger.transactions.filter fun t =>
            strLt "2026-01-05" t.date && strLe t.date "2026-01-15")
        - totalExpense (exampleLedger.transactions.filter fun t =>
            strLt "2026-01-05" t.date && strLe t.date "2026-01-15") :=
  claim_C2 exampleLedger "2026-01-05" "2026-01-15" (by decide) (by decide)

/-- Result record of `check_affordability`.  The Python function also
computes `total_upcoming = sum(...)` but never puts it in the returned dict,
so it is not part of the result. -/
structure AffordResult where
  target_date : String
  expense_amount : Int
  balance_before : Int
  balance_after : Int
  can_afford : Bool
  safety_margin : Int
  upcoming_expenses : List Transaction
  warning : Bool
deriving DecidableEq, Repr

/-- `check_affordability` from `okane_analyzer.py`.  A pure function of the
ledger: the ledger value is only read, never changed. -/
def check_affordability (data : Ledger) (amount : Int) (target_date : String) : AffordResult :=
  let balance_before := get_balance_at_date data target_date
  let balance_after := balance_before - amount
  let upcoming_expenses :=
    data.transactions.filter fun t => strLt target_date t.date && (t.txType == "expense")
  { target_date := target_date
    expense_amount := amount
    balance_before := balance_before
    balance_after := balance_after
    can_afford := decide (0 ≤ balance_after)
    safety_margin := balance_after
    upcoming_expenses := upcoming_expenses.take 5
    warning := decide (balance_after < 100000) }

/-- C4: `check_affordability` returns `balance_before = balanceAt(date)`,
`balance_after = balance_before - amount`, `can_afford = (balance_after >= 0)`
and `warning = (balance_after < 100000)`, the two flags being independent
tests of `balance_after`; on the example ledger with amount 3500 at
2026-01-05 it returns 6000 / 2500 / true / true.  The embedding is a pure
function, so the ledger is unchanged. -/
theorem claim_C4 (data : Ledger) (amount : Int) (target_date : String) :
    ((check_affordability data amount target_date).balance_before
        = get_balance_at_date data target_date
    ∧ (check_affordability data amount target_date).balance_after
        = get_balance_at_date data target_date - amount
    ∧ ((check_affordability data amount target_date).can_afford = true ↔
        0 ≤ (check_affordability data amount target_date).balance_after)
    ∧ ((check_affordability data amount target_date).warning = true ↔
        (check_affordability data amount target_date).balance_after < 100000))
    ∧ ((check_affordability exampleLedger 3500 "2026-01-05").balance_before = 6000
    ∧ (check_affordability exampleLedger 3500 "2026-01-05").balance_after = 2500
    ∧ (check_affordability exampleLedger 3500 "2026-01-05").can_afford = true
    ∧ (check_affordability exampleLedger 3500 "2026-01-05").warning = true) :=
  ⟨⟨rfl, rfl, by simp [check_affordability], by simp [check_affordability]⟩,
   by decide, by decide, by decide, by decide⟩

/-- Python truthiness of an optional string argument: `if x:` is taken
exactly when the argument is present and non-empty. -/
def truthy : Option String → Bool
  | none => false
  | some s => !(s == "")

/-- Contiguous-sublist test on character lists (Python's `needle in hay` on
strings). -/
def subListB (needle : List Char) : List Char → Bool
  | [] => needle.isEmpty
  | c :: rest => needle.isPrefixOf (c :: rest) || subListB needle rest

/-- Python's `needle in haystack` substring test. -/
def strContains (haystack needle : String) : Bool := subListB needle.data haystack.data

/-- `search_transactions` from `okane_editor.py`: chain of optional filters,
then sort by date descending (Python's `sorted(..., reverse=True)` is the
stable descending sort).  The keyword filter compares
`keyword.lower() in t['description'].lower()`; Python's `str.lower()` is the
Unicode case mapping (a large external table), so it enters the embedding as
the uninterpreted parameter `lower`, and every theorem below holds for the
actual mapping as an instance. -/
def search_transactions (lower : String → String) (data : Ledger)
    (keyword tx_type start_date end_date : Option String)
    (min_amount max_amount : Option Int) : List Transaction :=
  let ts0 := data.transactions
  let ts1 := if truthy tx_type then ts0.filter fun t => t.txType == tx_type.getD "" else ts0
  let ts2 := if truthy start_date then ts1.filter fun t => strLe (start_date.getD "") t.date
             else ts1
  let ts3 := if truthy end_date then ts2.filter fun t => strLe t.date (end_date.getD "") else ts2
  let ts4 := if min_amount.isSome then ts3.filter fun t => decide (min_amount.getD 0 ≤ t.amount)
             else ts3
  let ts5 := if max_amount.isSome then ts4.filter fun t => decide (t.amount ≤ max_amount.getD 0)
             else ts4
  let ts6 := if truthy keyword then
               ts5.filter fun t => strContains (lower t.description) (lower (keyword.getD ""))
             else ts5
  List.mergeSort ts6 fun a b => strLe b.date a.date

theorem mem_ite_filter (c : Bool) (p : Transaction → Bool) (l : List Transaction)
    (t : Transaction) :
    t ∈ (if c then l.filter p else l) ↔ t ∈ l ∧ (c = true → p t = true) := by
  cases c <;> simp [List.mem_filter]

theorem search_mem (lower : String → String) (data : Ledger) (k ty sd ed : Option String)
    (mn mx : Option Int) (t : Transaction) :
    t ∈ search_transactions lower data k ty sd ed mn mx ↔
      t ∈ data.transactions
      ∧ (truthy ty = true → t.txType = ty.getD "")
      ∧ (truthy sd = true → strLe (sd.getD "") t.date = true)
      ∧ (truthy ed = true → strLe t.date (ed.getD "") = true)
      ∧ (∀ m, mn = some m → m ≤ t.amount)
      ∧ (∀ m, mx = some m → t.amount ≤ m)
      ∧ (truthy k = true →
          strContains (lower t.description) (lower (k.getD "")) = true) := by
  unfold search_transactions
  simp only [List.mem_mergeSort, mem_ite_filter]
  cases mn <;> cases mx <;> simp <;> tauto

theorem descLe_trans (a b c : Transaction) (h1 : strLe b.date a.date = true)
    (h2 : strLe c.date b.date = true) : strLe c.date a.date = true := by
  rw [strLe_iff] at *
  exact le_trans h2 h1

theorem descLe_total (a b : Transaction) :
    (strLe b.date a.date || strLe a.date b.date) = true := by
  rcases le_total a.date b.date with h | h
  · rw [← strLe_iff] at h; simp [h]
  · rw [← strLe_iff] at h; simp [h]

/-- C7: for every instantiation of the Unicode lowercase mapping,
`search_transactions` returns exactly the transactions satisfying every
supplied filter (type, inclusive date window, inclusive amount window,
case-insensitive substring keyword via that mapping), sorted by date
descending; with no filters it returns all transactions date-descending, and
with `min_amount = max_amount = X` exactly the transactions with
`amount = X`. -/
theorem claim_C7 (lower : String → String) (data : Ledger) (k ty sd ed : Option String)
    (mn mx : Option Int) :
    (∀ t, t ∈ search_transactions lower data k ty sd ed mn mx ↔
      t ∈ data.transactions
      ∧ (truthy ty = true → t.txType = ty.getD "")
      ∧ (truthy sd = true → strLe (sd.getD "") t.date = true)
      ∧ (truthy ed = true → strLe t.date (ed.getD "") = true)
      ∧ (∀ m, mn = some m → m ≤ t.amount)
      ∧ (∀ m, mx = some m → t.amount ≤ m)
      ∧ (truthy k = true →
          strContains (lower t.description) (lower (k.getD "")) = true))
    ∧ List.Pairwise (fun a b => strLe b.date a.date = true)
        (search_transactions lower data k ty sd ed mn mx)
    ∧ (search_transactions lower data none none none none none none).Perm data.transactions
    ∧ (∀ X : Int, ∀ t,
        t ∈ search_transactions lower data none none none none (some X) (some X) ↔
          t ∈ data.transactions ∧ t.amount = X) := by
  refine ⟨search_mem lower data k ty sd ed mn mx, ?_, ?_, ?_⟩
  · exact List.sorted_mergeSort descLe_trans descLe_total _
  · unfold search_transactions
    simp only [truthy, Option.isSome, Bool.false_eq_true, if_neg, ite_false]
    exact List.mergeSort_perm data.transactions _
  · intro X t
    rw [search_mem]
    constructor
    · rintro ⟨hmem, -, -, -, hmn, hmx, -⟩
      exact ⟨hmem, le_antisymm (hmx X rfl) (hmn X rfl)⟩
    · rintro ⟨hmem, hamt⟩
      refine ⟨hmem, by simp [truthy], by simp [truthy], by simp [truthy], ?_, ?_,
        by simp [truthy]⟩
      · intro m hm
        cases hm
        omega
      · intro m hm
        cases hm
        omega

theorem claim_C7_witness :
    (search_transactions (fun s => s) exampleLedger none none none none none none).Perm
      exampleLedger.transactions :=
  (claim_C7 (fun s => s) exampleLedger none none none none none none).2.2.1

/-- Stable ascending sort by date (`sorted(..., key=lambda x: x['date'])`). -/
def sortByDate (l : List Transaction) : List Transaction :=
  List.mergeSort l fun a b => strLe a.date b.date

theorem ascLe_trans (a b c : Transaction) (h1 : strLe a.date b.date = true)
    (h2 : strLe b.date c.date = true) : strLe a.date c.date = true := by
  rw [strLe_iff] at *
  exact le_trans h1 h2

theorem ascLe_total (a b : Transaction) :
    (strLe a.date b.date || strLe b.date a.date) = true := by
  rcases le_total a.date b.date with h | h
  · rw [← strLe_iff] at h; simp [h]
  · rw [← strLe_iff] at h; simp [h]

/-- `add_transaction` from `okane_editor.py`.  The generated id
(`generate_id()`, timestamp plus random suffix) is taken as a parameter. -/
def add_transaction (data : Ledger) (date tx_type : String) (amount : Int)
    (description : String) (fresh_id : String) : Ledger × Transaction :=
  let new_tx : Transaction :=
    { id := fresh_id, date := date, txType := tx_type, amount := amount,
      description := description }
  ({ data with transactions := sortByDate (data.transactions ++ [new_tx]) }, new_tx)

/-- Core loop of `delete_transaction`: remove the first transaction with the
given id, returning the remaining list and the removed record. -/
def deleteFirst : List Transaction → String → Option (List Transaction × Transaction)
  | [], _ => none
  | t :: rest, i =>
      if t.id = i then some (rest, t)
      else
        match deleteFirst rest i with
        | some (rest', d) => some (t :: rest', d)
        | none => none

/-- `delete_transaction` from `okane_editor.py`: pops the first transaction
with the given id, or reports not-found leaving the ledger unchanged. -/
def delete_transaction (data : Ledger) (tx_id : String) : Ledger × Option Transaction :=
  match deleteFirst data.transactions tx_id with
  | some (rest, d) => ({ data with transactions := rest }, some d)
  | none => (data, none)

/-- Field update applied by `edit_transaction` to the matched transaction:
`date`/`type`/`description` only when truthy (`if date:` …), `amount`
whenever present (`if amount is not None:`). -/
def applyFields (t : Transaction) (date tx_type : Option String) (amount : Option Int)
    (description : Option String) : Transaction :=
  { t with
    date := if truthy date then date.getD t.date else t.date
    txType := if truthy tx_type then tx_type.getD t.txType else t.txType
    amount := match amount with | some a => a | none => t.amount
    description := if truthy description then description.getD t.description
                   else t.description }

/-- Core loop of `edit_transaction`: update the first transaction with the
given id in place. -/
def editFirst (i : String) (d ty : Option String) (a : Option Int) (ds : Option String) :
    List Transaction → Option (List Transaction × Transaction)
  | [] => none
  | t :: rest =>
      if t.id = i then some (applyFields t d ty a ds :: rest, applyFields t d ty a ds)
      else
        match editFirst i d ty a ds rest with
        | some (rest', e) => some (t :: rest', e)
        | none => none

/-- `edit_transaction` from `okane_editor.py`: partial update of the first
transaction with the given id, then re-sort by date; not-found leaves the
ledger unchanged. -/
def edit_transaction (data : Ledger) (tx_id : String) (date tx_type : Option String)
    (amount : Option Int) (description : Option String) : Ledger × Option Transaction :=
  match editFirst tx_id date tx_type amount description data.transactions with
  | some (txs, e) => ({ data with transactions := sortByDate txs }, some e)
  | none => (data, none)

theorem deleteFirst_of_not_mem {l : List Transaction} {i : String}
    (h : ∀ t ∈ l, t.id ≠ i) : deleteFirst l i = none := by
  induction l with
  | nil => rfl
  | cons t rest ih =>
      rw [deleteFirst, if_neg (h t (List.mem_cons_self t rest))]
      rw [ih fun u hu => h u (List.mem_cons_of_mem t hu)]

theorem editFirst_of_not_mem {l : List Transaction} {i : String} {d ty : Option String}
    {a : Option Int} {ds : Option String}
    (h : ∀ t ∈ l, t.id ≠ i) : editFirst i d ty a ds l = none := by
  induction l with
  | nil => rfl
  | cons t rest ih =>
      rw [editFirst, if_neg (h t (List.mem_cons_self t rest))]
      rw [ih fun u hu => h u (List.mem_cons_of_mem t hu)]

theorem deleteFirst_found :
    ∀ (pre : List Transaction) (t : Transaction) (post : List Transaction) (i : String),
      (∀ u ∈ pre, u.id ≠ i) → t.id = i →
      deleteFirst (pre ++ t :: post) i = some (pre ++ post, t)
  | [], t, post, i, _, ht => by simp [deleteFirst, ht]
  | u :: pre, t, post, i, hpre, ht => by
      rw [List.cons_append, deleteFirst,
        if_neg (hpre u (List.mem_cons_self u pre)),
        deleteFirst_found pre t post i (fun v hv => hpre v (List.mem_cons_of_mem u hv)) ht]
      rfl

theorem editFirst_found (d ty : Option String) (a : Option Int) (ds : Option String) :
    ∀ (pre : List Transaction) (t : Transaction) (post : List Transaction) (i : String),
      (∀ u ∈ pre, u.id ≠ i) → t.id = i →
      editFirst i d ty a ds (pre ++ t :: post)
        = some (pre ++ applyFields t d ty a ds :: post, applyFields t d ty a ds)
  | [], t, post, i, _, ht => by simp [editFirst, ht]
  | u :: pre, t, post, i, hpre, ht => by
      rw [List.cons_append, editFirst,
        if_neg (hpre u (List.mem_cons_self u pre)),
        editFirst_found d ty a ds pre t post i
          (fun v hv => hpre v (List.mem_cons_of_mem u hv)) ht]
      rfl

/-- C6: `edit_transaction` applies exactly the provided fields to the first
transaction with the given id (`amount` whenever present, including 0;
`date`/`type`/`description` only when truthy, an empty string counting as
not provided), leaves the id, the omitted fields and all other transactions
unchanged, and re-sorts the list stably by date ascending; with an unknown
id both `edit_transaction` and `delete_transaction` report not-found and
leave the ledger unchanged. -/
theorem claim_C6 (data : Ledger) (tx_id : String) (d ty : Option String) (a : Option Int)
    (ds : Option String) :
    ((∀ t ∈ data.transactions, t.id ≠ tx_id) →
        edit_transaction data tx_id d ty a ds = (data, none)
        ∧ delete_transaction data tx_id = (data, none))
    ∧ (∀ pre t post, data.transactions = pre ++ t :: post → (∀ u ∈ pre, u.id ≠ tx_id) →
        t.id = tx_id →
        edit_transaction data tx_id d ty a ds =
          ({ data with transactions := sortByDate (pre ++ applyFields t d ty a ds :: post) },
           some (applyFields t d ty a ds)))
    ∧ (∀ t : Transaction,
        (applyFields t d ty a ds).id = t.id
        ∧ (∀ x, a = some x → (applyFields t d ty a ds).amount = x)
        ∧ (a = none → (applyFields t d ty a ds).amount = t.amount)
        ∧ ((d = none ∨ d = some "") → (applyFields t d ty a ds).date = t.date)
        ∧ (∀ s, d = some s → s ≠ "" → (applyFields t d ty a ds).date = s)
        ∧ ((ty = none ∨ ty = some "") → (applyFields t d ty a ds).txType = t.txType)
        ∧ (∀ s, ty = some s → s ≠ "" → (applyFields t d ty a ds).txType = s)
        ∧ ((ds = none ∨ ds = some "") →
            (applyFields t d ty a ds).description = t.description)
        ∧ (∀ s, ds = some s → s ≠ "" → (applyFields t d ty a ds).description = s))
    ∧ List.Pairwise (fun u v => strLe u.date v.date = true) (sortByDate data.transactions)
    ∧ (sortByDate data.transactions).Perm data.transactions := by
  refine ⟨?_, ?_, ?_, ?_, ?_⟩
  · intro h
    constructor
    · rw [edit_transaction, editFirst_of_not_mem h]
    · rw [delete_transaction, deleteFirst_of_not_mem h]
  · intro pre t post hsplit hpre ht
    rw [edit_transaction, hsplit, editFirst_found d ty a ds pre t post tx_id hpre ht]
  · intro t
    refine ⟨rfl, ?_, ?_, ?_, ?_, ?_, ?_, ?_, ?_⟩
    · rintro x rfl; rfl
    · rintro rfl; rfl
    · rintro (rfl | rfl) <;> simp [applyFields, truthy]
    · rintro s rfl hs
      simp [applyFields, truthy, hs]
    · rintro (rfl | rfl) <;> simp [applyFields, truthy]
    · rintro s rfl hs
      simp [applyFields, truthy, hs]
    · rintro (rfl | rfl) <;> simp [applyFields, truthy]
    · rintro s rfl hs
      simp [applyFields, truthy, hs]
  · exact List.sorted_mergeSort ascLe_trans ascLe_total _
  · exact List.mergeSort_perm _ _

theorem claim_C6_witness :
    (edit_transaction exampleLedger "zzz" none none none none = (exampleLedger, none)
      ∧ delete_transaction exampleLedger "zzz" = (exampleLedger, none))
    ∧ edit_transaction exampleLedger "t1" (some "") none (some 0) none
        = ({ exampleLedger with
              transactions := sortByDate
                ([] ++ applyFields
                    { id := "t1", date := "2026-01-01", txType := "income",
                      amount := 5000, description := "salary" }
                    (some "") none (some 0) none
                  :: [{ id := "t2", date := "2026-01-10", txType := "expense",
                        amount := 3000, description := "rent" }]) },
           some (applyFields
              { id := "t1", date := "2026-01-01", txType := "income",
                amount := 5000, description := "salary" }
              (some "") none (some 0) none))
    ∧ (applyFields
        { id := "t1", date := "2026-01-01", txType := "income",
          amount := 5000, description := "salary" }
        (some "") none (some 0) none).amount = 0
    ∧ (applyFields
        { id := "t1", date := "2026-01-01", txType := "income",
          amount := 5000, description := "salary" }
        (some "") none (some 0) none).date = "2026-01-01" :=
  ⟨(claim_C6 exampleLedger "zzz" none none none none).1 (by decide),
   (claim_C6 exampleLedger "t1" (some "") none (some 0) none).2.1 []
     { id := "t1", date := "2026-01-01", txType := "income",
       amount := 5000, description := "salary" }
     [{ id := "t2", date := "2026-01-10", txType := "expense",
        amount := 3000, description := "rent" }] rfl (by decide) rfl,
   ((claim_C6 exampleLedger "t1" (some "") none (some 0) none).2.2.1
     { id := "t1", date := "2026-01-01", txType := "income",
       amount := 5000, description := "salary" }).2.1 0 rfl,
   ((claim_C6 exampleLedger "t1" (some "") none (some 0) none).2.2.1
     { id := "t1", date := "2026-01-01", txType := "income",
       amount := 5000, description := "salary" }).2.2.2.1 (Or.inr rfl)⟩

theorem deleteFirst_split {l : List Transaction} {i : String}
    {l' : List Transaction} {d : Transaction} :
    deleteFirst l i = some (l', d) →
    ∃ pre post, l = pre ++ d :: post ∧ l' = pre ++ post
      ∧ (∀ u ∈ pre, u.id ≠ i) ∧ d.id = i := by
  induction l generalizing l' with
  | nil => intro h; cases h
  | cons t rest ih =>
      intro h
      rw [deleteFirst] at h
      by_cases hid : t.id = i
      · rw [if_pos hid] at h
        cases h
        exact ⟨[], rest, rfl, rfl, by simp, hid⟩
      · rw [if_neg hid] at h
        cases hrec : deleteFirst rest i with
        | none => rw [hrec] at h; cases h
        | some out =>
            rw [hrec] at h
            obtain ⟨rest', d0⟩ := out
            cases h
            obtain ⟨pre, post, h1, h2, h3, h4⟩ := ih hrec
            refine ⟨t :: pre, post, by rw [List.cons_append, h1], by rw [List.cons_append, h2],
              ?_, h4⟩
            intro u hu
            rcases List.mem_cons.mp hu with rfl | hu
            · exact hid
            · exact h3 u hu

theorem deleteFirst_isSome {l : List Transaction} {i : String}
    (h : ∃ t ∈ l, t.id = i) : (deleteFirst l i).isSome = true := by
  induction l with
  | nil => obtain ⟨t, ht, -⟩ := h; cases ht
  | cons t rest ih =>
      rw [deleteFirst]
      by_cases hid : t.id = i
      · rw [if_pos hid]; rfl
      · rw [if_neg hid]
        obtain ⟨u, hu, hui⟩ := h
        rcases List.mem_cons.mp hu with rfl | hu
        · exact absurd hui hid
        · have := ih ⟨u, hu, hui⟩
          cases hrec : deleteFirst rest i with
          | none => rw [hrec] at this; cases this
          | some out => obtain ⟨a, b⟩ := out; rfl

/-- C9: adding a transaction under a fresh id and then deleting by that id
returns the added record and restores the original transaction list up to
permutation (hence as a set). -/
theorem claim_C9 (data : Ledger) (date tx_type : String) (amount : Int)
    (description fresh_id : String)
    (hfresh : ∀ t ∈ data.transactions, t.id ≠ fresh_id) :
    let added := add_transaction data date tx_type amount description fresh_id
    let deleted := delete_transaction added.1 added.2.id
    deleted.2 = some added.2
    ∧ deleted.1.transactions.Perm data.transactions
    ∧ (∀ t, t ∈ deleted.1.transactions ↔ t ∈ data.transactions) := by
  intro added deleted
  set new_tx : Transaction :=
    { id := fresh_id, date := date, txType := tx_type, amount := amount,
      description := description } with hnew
  have haddtx : added.1.transactions = sortByDate (data.transactions ++ [new_tx]) := rfl
  have haddid : added.2.id = fresh_id := rfl
  have hperm0 : (sortByDate (data.transactions ++ [new_tx])).Perm
      (data.transactions ++ [new_tx]) := List.mergeSort_perm _ _
  have hmem : new_tx ∈ sortByDate (data.transactions ++ [new_tx]) := by
    rw [sortByDate, List.mem_mergeSort]
    exact List.mem_append_right _ (List.mem_singleton.mpr rfl)
  have hsome :=
    deleteFirst_isSome (l := sortByDate (data.transactions ++ [new_tx])) (i := fresh_id)
      ⟨new_tx, hmem, rfl⟩
  cases hdel : deleteFirst (sortByDate (data.transactions ++ [new_tx])) fresh_id with
  | none => rw [hdel] at hsome; cases hsome
  | some out =>
      obtain ⟨l', dtx⟩ := out
      obtain ⟨pre, post, h1, h2, h3, h4⟩ := deleteFirst_split hdel
      have hdd : dtx = new_tx := by
        have hd_mem : dtx ∈ data.transactions ++ [new_tx] := by
          rw [← hperm0.mem_iff, h1]
          exact List.mem_append_right _ (List.mem_cons_self _ _)
        rcases List.mem_append.mp hd_mem with hmem2 | hmem2
        · exact absurd h4 (hfresh dtx hmem2)
        · exact List.mem_singleton.mp hmem2
      have hres : deleted = ({ added.1 with transactions := l' }, some dtx) := by
        show delete_transaction added.1 added.2.id = _
        rw [delete_transaction, haddid]
        have : added.1.transactions = sortByDate (data.transactions ++ [new_tx]) := rfl
        rw [this, hdel]
      have hperm : l'.Perm data.transactions := by
        have e1 : (data.transactions ++ [new_tx]).Perm (new_tx :: data.transactions) :=
          List.perm_append_singleton _ _
        have e2 : (pre ++ dtx :: post).Perm (dtx :: (pre ++ post)) := List.perm_middle
        have e3 : (data.transactions ++ [new_tx]).Perm (dtx :: l') := by
          have s1 := hperm0.symm
          rw [h1] at s1
          rw [h2]
          exact s1.trans e2
        have e4 : (new_tx :: data.transactions).Perm (dtx :: l') := e1.symm.trans e3
        rw [hdd] at e4
        exact (e4.cons_inv).symm
      refine ⟨?_, ?_, ?_⟩
      · rw [hres, hdd]
        rfl
      · rw [hres]
        exact hperm
      · intro t
        rw [hres]
        exact hperm.mem_iff

/-- Danger point record emitted by `find_danger_points`. -/
structure DangerPoint where
  date : String
  balance : Int
  shortfall : Int
deriving DecidableEq, Repr

/-- Loop of `find_danger_points`: walk the (sorted) transactions carrying
`balance`, `daily_balance` and `current_date`; flush the previous day on a
date change (`if current_date and t['date'] != current_date:`, Python
truthiness of the string), and flush the final day after the loop. -/
def dangerLoop (th : Int) : Int → Int → Option String → List Transaction → List DangerPoint
  | _, daily, cd, [] =>
      if truthy cd then
        if daily ≤ th then [{ date := cd.getD "", balance := daily, shortfall := th - daily }]
        else []
      else []
  | b, daily, cd, t :: ts =>
      (if truthy cd && !(t.date == cd.getD "") then
        if daily ≤ th then [{ date := cd.getD "", balance := daily, shortfall := th - daily }]
        else []
       else [])
      ++ dangerLoop th (b + signedAmount t) (b + signedAmount t) (some t.date) ts

/-- `find_danger_points` from `okane_analyzer.py`. -/
def find_danger_points (data : Ledger) (threshold : Int) : List DangerPoint :=
  dangerLoop threshold (data.initialBalance.getD 0) (data.initialBalance.getD 0) none
    (sortByDate data.transactions)

/-- The same walk emitting every per-day balance sample (the
`balance_history` list built alongside the danger points). -/
def historyLoop : Int → Int → Option String → List Transaction → List (String × Int)
  | _, daily, cd, [] => if truthy cd then [(cd.getD "", daily)] else []
  | b, daily, cd, t :: ts =>
      (if truthy cd && !(t.date == cd.getD "") then [(cd.getD "", daily)] else [])
      ++ historyLoop (b + signedAmount t) (b + signedAmount t) (some t.date) ts

/-- Reference description of the per-day balances: group maximal runs of
equal adjacent dates and record the running balance after the last
transaction of each run. -/
def dayEnds (b : Int) : List Transaction → List (String × Int)
  | [] => []
  | t :: ts =>
      match ts with
      | [] => [(t.date, b + signedAmount t)]
      | t' :: _ =>
          if t'.date = t.date then dayEnds (b + signedAmount t) ts
          else (t.date, b + signedAmount t) :: dayEnds (b + signedAmount t) ts

/-- Head-date test: does the walk continue on date `d` at the next
transaction? -/
def contFlag (d : String) : List Transaction → Bool
  | [] => false
  | t :: _ => t.date == d

theorem dayEnds_cons (b : Int) (t : Transaction) (ts : List Transaction) :
    dayEnds b (t :: ts)
      = (if contFlag t.date ts then [] else [(t.date, b + signedAmount t)])
        ++ dayEnds (b + signedAmount t) ts := by
  cases ts with
  | nil => simp [dayEnds, contFlag]
  | cons t' r =>
      by_cases h : t'.date = t.date <;> simp [dayEnds, contFlag, h]

theorem dangerLoop_eq_filterMap (th : Int) :
    ∀ (ts : List Transaction) (b daily : Int) (cd : Option String),
      dangerLoop th b daily cd ts
        = ((historyLoop b daily cd ts).filter fun p => decide (p.2 ≤ th)).map
            fun p => { date := p.1, balance := p.2, shortfall := th - p.2 }
  | [], b, daily, cd => by
      cases hcd : truthy cd <;> by_cases h : daily ≤ th <;>
        simp [dangerLoop, historyLoop, hcd, h]
  | t :: ts, b, daily, cd => by
      have ih := dangerLoop_eq_filterMap th ts (b + signedAmount t) (b + signedAmount t)
        (some t.date)
      rw [dangerLoop, historyLoop, List.filter_append, List.map_append, ih]
      cases hc : (truthy cd && !(t.date == cd.getD "")) <;> by_cases h : daily ≤ th <;>
        simp [hc, h]

theorem historyLoop_some :
    ∀ (ts : List Transaction) (d : String) (b : Int), d ≠ "" →
      (∀ t ∈ ts, t.date ≠ "") →
      historyLoop b b (some d) ts
        = (if contFlag d ts then [] else [(d, b)]) ++ dayEnds b ts
  | [], d, b, hd, _ => by simp [historyLoop, dayEnds, contFlag, truthy, hd]
  | t :: ts, d, b, hd, hts => by
      have htd : t.date ≠ "" := hts t (List.mem_cons_self t ts)
      have ih := historyLoop_some ts t.date (b + signedAmount t) htd
        fun u hu => hts u (List.mem_cons_of_mem t hu)
      rw [historyLoop, ih, dayEnds_cons, contFlag]
      have htr : truthy (some d) = true := by simp [truthy, hd]
      simp only [htr, Bool.true_and, Option.getD_some]
      cases hx : (t.date == d) <;> simp [hx]

theorem historyLoop_none (ts : List Transaction) (b : Int)
    (hts : ∀ t ∈ ts, t.date ≠ "") :
    historyLoop b b none ts = dayEnds b ts := by
  cases ts with
  | nil => rfl
  | cons t ts' =>
      have htd : t.date ≠ "" := hts t (List.mem_cons_self t ts')
      rw [historyLoop, historyLoop_some ts' t.date (b + signedAmount t) htd
        (fun u hu => hts u (List.mem_cons_of_mem t hu)), dayEnds_cons]
      simp [truthy]

theorem dayEnds_fst_mem :
    ∀ (ts : List Transaction) (b : Int) (p : String × Int),
      p ∈ dayEnds b ts → p.1 ∈ ts.map Transaction.date
  | [], _, _, h => by cases h
  | t :: ts, b, p, h => by
      rw [dayEnds_cons] at h
      rcases List.mem_append.mp h with h1 | h1
      · cases hc : contFlag t.date ts <;> simp [hc] at h1
        subst h1
        simp
      · have := dayEnds_fst_mem ts (b + signedAmount t) p h1
        simp only [List.map_cons, List.mem_cons]
        exact Or.inr (by simpa using this)

theorem dayEnds_fst_dedup :
    ∀ (ts : List Transaction) (b : Int),
      List.Pairwise (fun a b : Transaction => a.date ≤ b.date) ts →
      (dayEnds b ts).map Prod.fst = (ts.map Transaction.date).dedup
  | [], _, _ => rfl
  | t :: ts, b, hs => by
      have hs' : List.Pairwise (fun a b : Transaction => a.date ≤ b.date) ts :=
        hs.of_cons
      have hhead : ∀ u ∈ ts, t.date ≤ u.date := fun u hu =>
        (List.pairwise_cons.mp hs).1 u hu
      have ih := dayEnds_fst_dedup ts (b + signedAmount t) hs'
      rw [dayEnds_cons]
      cases ts with
      | nil => simp [contFlag, dayEnds]
      | cons t' r =>
          by_cases h : t'.date = t.date
          · have hmem : t.date ∈ (t' :: r).map Transaction.date := by
              simp [← h]
            rw [List.map_cons (f := Transaction.date), List.dedup_cons_of_mem hmem]
            simp only [contFlag, beq_iff_eq, h, if_pos, if_true]
            simpa using ih
          · have hnot : t.date ∉ (t' :: r).map Transaction.date := by
              intro hmem
              obtain ⟨u, hu, hueq⟩ := List.mem_map.mp hmem
              have h1 : t.date ≤ t'.date := hhead t' (List.mem_cons_self t' r)
              have h2 : t'.date ≤ u.date := by
                rcases List.mem_cons.mp hu with rfl | hu'
                · exact le_refl _
                · exact (List.pairwise_cons.mp hs').1 u hu'
              have : t.date < t'.date := lt_of_le_of_ne h1 fun he => h he.symm
              exact absurd hueq.symm (ne_of_gt (lt_of_lt_of_le this h2)).symm
            rw [List.map_cons (f := Transaction.date), List.dedup_cons_of_not_mem hnot]
            simp only [contFlag, beq_iff_eq, h, if_neg, if_false]
            simpa using ih

theorem pairwise_lt_dedup {l : List String} (h : List.Pairwise (· ≤ ·) l) :
    List.Pairwise (· < ·) l.dedup := by
  have h1 : List.Pairwise (· ≤ ·) l.dedup := h.sublist (List.dedup_sublist l)
  have h2 : List.Pairwise (· ≠ ·) l.dedup := List.nodup_dedup l
  exact (h1.and h2).imp fun hab => lt_of_le_of_ne hab.1 hab.2

theorem sortByDate_sorted (l : List Transaction) :
    List.Pairwise (fun a b : Transaction => a.date ≤ b.date) (sortByDate l) := by
  unfold sortByDate
  exact (List.sorted_mergeSort ascLe_trans ascLe_total l).imp
    fun hab => (strLe_iff _ _).mp hab

theorem mem_sortByDate {t : Transaction} {l : List Transaction} :
    t ∈ sortByDate l ↔ t ∈ l := by
  unfold sortByDate
  exact List.mem_mergeSort

/-- C3: `find_danger_points` equals the per-day balance samples (`dayEnds` of
the stable date-ascending sort) filtered by `balance <= threshold` and
decorated with `shortfall = threshold - balance`; the per-day samples carry
exactly the distinct transaction dates, so points are at most one per
distinct date, strictly ascending, with nonnegative shortfall; a threshold
at least every end-of-day balance yields one point per distinct date, and a
threshold strictly below every end-of-day balance yields none. -/
theorem claim_C3 (data : Ledger) (threshold : Int)
    (hdates : ∀ t ∈ data.transactions, t.date ≠ "") :
    find_danger_points data threshold
      = ((dayEnds (data.initialBalance.getD 0) (sortByDate data.transactions)).filter
            fun p => decide (p.2 ≤ threshold)).map
          (fun p => { date := p.1, balance := p.2, shortfall := threshold - p.2 })
    ∧ (dayEnds (data.initialBalance.getD 0) (sortByDate data.transactions)).map Prod.fst
        = ((sortByDate data.transactions).map Transaction.date).dedup
    ∧ List.Pairwise (· < ·) ((find_danger_points data threshold).map DangerPoint.date)
    ∧ (∀ p ∈ find_danger_points data threshold,
        p.shortfall = threshold - p.balance ∧ 0 ≤ p.shortfall
          ∧ p.date ∈ data.transactions.map Transaction.date)
    ∧ ((∀ q ∈ dayEnds (data.initialBalance.getD 0) (sortByDate data.transactions),
          q.2 ≤ threshold) →
        (find_danger_points data threshold).map DangerPoint.date
          = ((sortByDate data.transactions).map Transaction.date).dedup)
    ∧ ((∀ q ∈ dayEnds (data.initialBalance.getD 0) (sortByDate data.transactions),
          threshold < q.2) →
        find_danger_points data threshold = []) := by
  have hsd : ∀ t ∈ sortByDate data.transactions, t.date ≠ "" := fun t ht =>
    hdates t (mem_sortByDate.mp ht)
  have hmain : find_danger_points data threshold
      = ((dayEnds (data.initialBalance.getD 0) (sortByDate data.transactions)).filter
            fun p => decide (p.2 ≤ threshold)).map
          (fun p => { date := p.1, balance := p.2, shortfall := threshold - p.2 }) := by
    unfold find_danger_points
    rw [dangerLoop_eq_filterMap, historyLoop_none _ _ hsd]
  have hsorted := sortByDate_sorted data.transactions
  have hdedup : (dayEnds (data.initialBalance.getD 0) (sortByDate data.transactions)).map
      Prod.fst = ((sortByDate data.transactions).map Transaction.date).dedup :=
    dayEnds_fst_dedup _ _ hsorted
  have hdatesorted :
      List.Pairwise (· ≤ ·) ((sortByDate data.transactions).map Transaction.date) :=
    List.pairwise_map.mpr hsorted
  have hlt : List.Pairwise (· < ·)
      ((dayEnds (data.initialBalance.getD 0) (sortByDate data.transactions)).map Prod.fst) := by
    rw [hdedup]
    exact pairwise_lt_dedup hdatesorted
  have hptsdates : (find_danger_points data threshold).map DangerPoint.date
      = ((dayEnds (data.initialBalance.getD 0) (sortByDate data.transactions)).filter
            fun p => decide (p.2 ≤ threshold)).map Prod.fst := by
    rw [hmain, List.map_map]
    rfl
  refine ⟨hmain, hdedup, ?_, ?_, ?_, ?_⟩
  · rw [hptsdates]
    exact hlt.sublist ((List.filter_sublist _).map Prod.fst)
  · intro p hp
    rw [hmain] at hp
    obtain ⟨q, hq, rfl⟩ := List.mem_map.mp hp
    obtain ⟨hq1, hq2⟩ := List.mem_filter.mp hq
    have hle : q.2 ≤ threshold := of_decide_eq_true hq2
    refine ⟨rfl, by simp; omega, ?_⟩
    have := dayEnds_fst_mem _ _ q hq1
    obtain ⟨u, hu, hue⟩ := List.mem_map.mp this
    exact List.mem_map.mpr ⟨u, mem_sortByDate.mp hu, hue⟩
  · intro hfull
    have hff : (dayEnds (data.initialBalance.getD 0) (sortByDate data.transactions)).filter
        (fun p => decide (p.2 ≤ threshold))
        = dayEnds (data.initialBalance.getD 0) (sortByDate data.transactions) :=
      List.filter_eq_self.mpr fun a ha => decide_eq_true (hfull a ha)
    rw [hptsdates, hff, hdedup]
  · intro hnone
    have hff : (dayEnds (data.initialBalance.getD 0) (sortByDate data.transactions)).filter
        (fun p => decide (p.2 ≤ threshold)) = [] := by
      rw [List.filter_eq_nil_iff]
      intro a ha
      simp only [decide_eq_true_eq, not_le]
      exact hnone a ha
    rw [hmain, hff]
    rfl

theorem claim_C3_witness :
    find_danger_points exampleLedger 2000
      = ((dayEnds (exampleLedger.initialBalance.getD 0) (sortByDate exampleLedger.transactions)).filter
            fun p => decide (p.2 ≤ 2000)).map
          (fun p => { date := p.1, balance := p.2, shortfall := 2000 - p.2 }) :=
  (claim_C3 exampleLedger 2000 (by decide)).1

/-- C10: on a ledger with no transactions `find_danger_points` returns the
empty list for every threshold and initial balance — the initial balance
alone is never reported because no date is ever flushed. -/
theorem claim_C10 (init : Option Int) (c : Option Bool) (ca : Option String)
    (threshold : Int) :
    find_danger_points
      { initialBalance := init, transactions := [], compressed := c, compressedAt := ca }
      threshold = [] := by
  unfold find_danger_points sortByDate
  rw [List.mergeSort_nil]
  rfl

theorem claim_C9_witness :
    (delete_transaction
        (add_transaction exampleLedger "2026-02-01" "income" 100 "bonus" "fresh1").1
        (add_transaction exampleLedger "2026-02-01" "income" 100 "bonus" "fresh1").2.id
      ).1.transactions.Perm exampleLedger.transactions :=
  (claim_C9 exampleLedger "2026-02-01" "income" 100 "bonus" "fresh1" (by decide)).2.1

/-- Python's `s[:n]` character slice. -/
def strTake (s : String) (n : Nat) : String := ⟨s.data.take n⟩

/-- The `t['date'][:7]` month key of a transaction. -/
def monthOf (t : Transaction) : String := strTake t.date 7

/-- The keys of `monthly_summary`, iterated as `sorted(monthly_summary.keys())`:
the distinct months of the old transactions, ascending. -/
def monthsOf (old : List Transaction) : List String :=
  List.mergeSort ((old.map monthOf).dedup) fun a b => strLe a b

/-- `monthly_summary[month]['income']`. -/
def incomeOfMonth (old : List Transaction) (m : String) : Int :=
  totalIncome (old.filter fun t => monthOf t == m)

/-- `monthly_summary[month]['expense']`: the source's else-branch
(`if t['type'] == 'income': ... else: ...`) folds every non-income old
transaction of the month into the expense total. -/
def expenseOfMonth (old : List Transaction) (m : String) : Int :=
  sumBy (fun t => !(t.txType == "income")) (old.filter fun t => monthOf t == m)

/-- The at-most-two synthetic transactions emitted for one month (`income`
total then `expense` total, each only when positive). -/
def compressedFor (old : List Transaction) (m : String) : List Transaction :=
  (if 0 < incomeOfMonth old m then
    [{ id := "compressed-" ++ m ++ "-income", date := m ++ "-01", txType := "income",
       amount := incomeOfMonth old m, description := m ++ "収入合計（圧縮）" }]
   else [])
  ++ (if 0 < expenseOfMonth old m then
    [{ id := "compressed-" ++ m ++ "-expense", date := m ++ "-01", txType := "expense",
       amount := expenseOfMonth old m, description := m ++ "支出合計（圧縮）" }]
   else [])

/-- All synthetic transactions, month by month in ascending month order. -/
def compressedTxs (data : Ledger) (cutoff : String) : List Transaction :=
  let old := data.transactions.filter fun t => strLt (monthOf t) cutoff
  (monthsOf old).flatMap (compressedFor old)

/-- `compress_logs` from `okane_analyzer.py`.  The cutoff month string
(computed in Python from `datetime.now()` and `keep_months`) and the
compression timestamp are taken as parameters. -/
def compress_logs (data : Ledger) (cutoff timestamp : String) : Ledger :=
  { data with
    transactions :=
      compressedTxs data cutoff
        ++ data.transactions.filter fun t => !(strLt (monthOf t) cutoff)
    compressed := some true
    compressedAt := some timestamp }

theorem sumBy_partition (p q : Transaction → Bool) (l : List Transaction) :
    sumBy p l = sumBy p (l.filter q) + sumBy p (l.filter fun t => !(q t)) := by
  induction l with
  | nil => simp [sumBy_nil]
  | cons t l ih =>
      cases hq : q t <;>
        simp only [List.filter_cons, hq, Bool.not_true, Bool.not_false, ite_true, ite_false,
          Bool.false_eq_true, Bool.true_eq_false, if_neg, sumBy_cons, ih] <;> ring

theorem sum_map_single {M : List String} {x : String} (hnd : M.Nodup) (hx : x ∈ M)
    (c : Int) : (M.map fun m => if x == m then c else 0).sum = c := by
  induction M with
  | nil => cases hx
  | cons a M ih =>
      rcases List.mem_cons.mp hx with rfl | hx'
      · have hz : (M.map fun m => if x == m then c else 0).sum = 0 := by
          apply List.sum_eq_zero
          intro y hy
          obtain ⟨m, hm, rfl⟩ := List.mem_map.mp hy
          have hne : x ≠ m := by
            rintro rfl
            exact (List.nodup_cons.mp hnd).1 hm
          simp [hne]
        rw [List.map_cons, List.sum_cons, hz]
        simp
      · have hne : x ≠ a := by
          rintro rfl
          exact (List.nodup_cons.mp hnd).1 hx'
        have hrec := ih (List.nodup_cons.mp hnd).2 hx'
        rw [List.map_cons, List.sum_cons, hrec]
        simp [hne]

theorem sumBy_months (p : Transaction → Bool) :
    ∀ (old : List Transaction) (M : List String), M.Nodup →
      (∀ t ∈ old, monthOf t ∈ M) →
      (M.map fun m => sumBy p (old.filter fun t => monthOf t == m)).sum = sumBy p old
  | [], M, _, _ => by
      apply List.sum_eq_zero
      intro y hy
      obtain ⟨m, -, rfl⟩ := List.mem_map.mp hy
      simp [sumBy_nil]
  | t :: old, M, hnd, hm => by
      have hexp : ∀ m, sumBy p ((t :: old).filter fun u => monthOf u == m)
          = (if monthOf t == m then (if p t then t.amount else 0) else 0)
            + sumBy p (old.filter fun u => monthOf u == m) := by
        intro m
        cases hmm : (monthOf t == m) <;> simp [List.filter_cons, hmm, sumBy_cons]
      rw [List.map_congr_left fun m _ => hexp m, List.sum_map_add,
        sum_map_single hnd (hm t (List.mem_cons_self t old)),
        sumBy_months p old M hnd fun u hu => hm u (List.mem_cons_of_mem t hu),
        sumBy_cons]

theorem sumBy_flatMap (p : Transaction → Bool) (f : String → List Transaction) :
    ∀ M : List String, sumBy p (M.flatMap f) = (M.map fun m => sumBy p (f m)).sum
  | [] => rfl
  | m :: M => by
      rw [List.flatMap_cons, sumBy_append, sumBy_flatMap p f M, List.map_cons, List.sum_cons]

theorem strLe_trans (a b c : String) (h1 : strLe a b = true) (h2 : strLe b c = true) :
    strLe a c = true := by
  rw [strLe_iff] at *
  exact le_trans h1 h2

theorem strLe_total (a b : String) : (strLe a b || strLe b a) = true := by
  rcases le_total a b with h | h
  · rw [← strLe_iff] at h; simp [h]
  · rw [← strLe_iff] at h; simp [h]

theorem sumBy_not_income (l : List Transaction) (hw : wellTyped l) :
    sumBy (fun t => !(t.txType == "income")) l
      = sumBy (fun t => t.txType == "expense") l := by
  induction l with
  | nil => rfl
  | cons t l ih =>
      have ht := hw t (List.mem_cons_self t l)
      have ihl := ih fun u hu => hw u (List.mem_cons_of_mem t hu)
      rw [sumBy_cons, sumBy_cons, ihl]
      rcases ht with h | h <;> simp [h]

theorem monthsOf_nodup (old : List Transaction) : (monthsOf old).Nodup :=
  (List.mergeSort_perm _ _).nodup_iff.mpr (List.nodup_dedup _)

theorem monthsOf_mem {old : List Transaction} {t : Transaction} (ht : t ∈ old) :
    monthOf t ∈ monthsOf old := by
  unfold monthsOf
  rw [List.mem_mergeSort, List.mem_dedup]
  exact List.mem_map_of_mem monthOf ht

theorem monthsOf_sorted (old : List Transaction) :
    List.Pairwise (· ≤ ·) (monthsOf old) :=
  (List.sorted_mergeSort strLe_trans strLe_total _).imp fun hab => (strLe_iff _ _).mp hab

theorem incomeOfMonth_nonneg {old : List Transaction} (h : ∀ t ∈ old, 0 ≤ t.amount)
    (m : String) : 0 ≤ incomeOfMonth old m :=
  sumBy_nonneg _ _ fun t ht => h t (List.mem_filter.mp ht).1

theorem expenseOfMonth_nonneg {old : List Transaction} (h : ∀ t ∈ old, 0 ≤ t.amount)
    (m : String) : 0 ≤ expenseOfMonth old m :=
  sumBy_nonneg _ _ fun t ht => h t (List.mem_filter.mp ht).1

theorem compressedFor_income {old : List Transaction} (h : ∀ t ∈ old, 0 ≤ t.amount)
    (m : String) : totalIncome (compressedFor old m) = incomeOfMonth old m := by
  have hi := incomeOfMonth_nonneg h m
  unfold compressedFor totalIncome
  rw [sumBy_append]
  by_cases h1 : 0 < incomeOfMonth old m <;> by_cases h2 : 0 < expenseOfMonth old m <;>
    simp [h1, h2, sumBy_cons, sumBy_nil] <;> omega

theorem compressedFor_expense {old : List Transaction} (h : ∀ t ∈ old, 0 ≤ t.amount)
    (m : String) : totalExpense (compressedFor old m) = expenseOfMonth old m := by
  have he := expenseOfMonth_nonneg h m
  unfold compressedFor totalExpense
  rw [sumBy_append]
  by_cases h1 : 0 < incomeOfMonth old m <;> by_cases h2 : 0 < expenseOfMonth old m <;>
    simp [h1, h2, sumBy_cons, sumBy_nil] <;> omega

/-- C5: for a well-typed ledger with nonnegative amounts, `compress_logs`
preserves the total income sum and the total expense sum over the whole
transaction list, keeps every transaction at or after the cutoff month
unchanged, and returns the synthetic per-month totals (months ascending)
followed by the kept transactions in their original relative order. -/
theorem claim_C5 (data : Ledger) (cutoff timestamp : String)
    (hw : wellTyped data.transactions)
    (hamt : ∀ t ∈ data.transactions, 0 ≤ t.amount) :
    totalIncome (compress_logs data cutoff timestamp).transactions
        = totalIncome data.transactions
    ∧ totalExpense (compress_logs data cutoff timestamp).transactions
        = totalExpense data.transactions
    ∧ (∀ t ∈ data.transactions, strLt (monthOf t) cutoff = false →
        t ∈ (compress_logs data cutoff timestamp).transactions)
    ∧ ((compress_logs data cutoff timestamp).transactions
        = compressedTxs data cutoff
          ++ data.transactions.filter fun t => !(strLt (monthOf t) cutoff))
    ∧ List.Pairwise (· ≤ ·)
        (monthsOf (data.transactions.filter fun t => strLt (monthOf t) cutoff))
    ∧ compressedTxs data cutoff
        = (monthsOf (data.transactions.filter fun t => strLt (monthOf t) cutoff)).flatMap
            (compressedFor (data.transactions.filter fun t => strLt (monthOf t) cutoff)) := by
  set old := data.transactions.filter fun t => strLt (monthOf t) cutoff with hold
  have hamt_old : ∀ t ∈ old, 0 ≤ t.amount := fun t ht =>
    hamt t (List.mem_filter.mp ht).1
  have hw_old : wellTyped old := fun t ht => hw t (List.mem_filter.mp ht).1
  have hsyn_inc : totalIncome (compressedTxs data cutoff) = totalIncome old := by
    unfold compressedTxs
    rw [← hold]
    unfold totalIncome
    rw [sumBy_flatMap]
    have := List.map_congr_left (l := monthsOf old)
      fun m _ => compressedFor_income hamt_old m
    unfold totalIncome at this
    rw [this]
    unfold incomeOfMonth totalIncome
    exact sumBy_months _ old (monthsOf old) (monthsOf_nodup old) fun t ht =>
      monthsOf_mem ht
  have hsyn_exp : totalExpense (compressedTxs data cutoff) = totalExpense old := by
    unfold compressedTxs
    rw [← hold]
    unfold totalExpense
    rw [sumBy_flatMap]
    have hmc := List.map_congr_left (l := monthsOf old)
      fun m _ => compressedFor_expense hamt_old m
    unfold totalExpense at hmc
    rw [hmc]
    unfold expenseOfMonth
    rw [sumBy_months _ old (monthsOf old) (monthsOf_nodup old) fun t ht =>
      monthsOf_mem ht]
    exact sumBy_not_income old hw_old
  have htrans : (compress_logs data cutoff timestamp).transactions
      = compressedTxs data cutoff
        ++ data.transactions.filter fun t => !(strLt (monthOf t) cutoff) := rfl
  refine ⟨?_, ?_, ?_, htrans, monthsOf_sorted old, rfl⟩
  · rw [htrans]
    unfold totalIncome
    rw [sumBy_append]
    unfold totalIncome at hsyn_inc
    rw [hsyn_inc, hold]
    exact (sumBy_partition _ _ data.transactions).symm
  · rw [htrans]
    unfold totalExpense
    rw [sumBy_append]
    unfold totalExpense at hsyn_exp
    rw [hsyn_exp, hold]
    exact (sumBy_partition _ _ data.transactions).symm
  · intro t ht hcut
    rw [htrans]
    refine List.mem_append_right _ (List.mem_filter.mpr ⟨ht, ?_⟩)
    rw [hcut]
    rfl

theorem claim_C5_witness :
    totalIncome (compress_logs exampleLedger "2026-04" "2026-07-01T00:00:00").transactions
      = totalIncome exampleLedger.transactions :=
  (claim_C5 exampleLedger "2026-04" "2026-07-01T00:00:00" (by decide) (by decide)).1

/-- Gregorian leap-year rule (as implemented by Python's `datetime`). -/
def isLeapYear (y : Nat) : Bool := y % 4 == 0 && (y % 100 != 0 || y % 400 == 0)

/-- Length of a calendar month. -/
def daysInMonth (y m : Nat) : Nat :=
  if m = 2 then (if isLeapYear y then 29 else 28)
  else if m = 4 ∨ m = 6 ∨ m = 9 ∨ m = 11 then 30
  else 31

/-- A calendar date (`datetime.date`-like triple). -/
structure PyDate where
  year : Nat
  month : Nat
  day : Nat
deriving DecidableEq, Repr

/-- A real calendar date. -/
abbrev PyDate.valid (d : PyDate) : Prop :=
  1 ≤ d.month ∧ d.month ≤ 12 ∧ 1 ≤ d.day ∧ d.day ≤ daysInMonth d.year d.month

/-- `today + relativedelta(months=i)`: advance the month, clamping the day to
the length of the target month. -/
def addMonths (d : PyDate) (i : Nat) : PyDate :=
  let tm := d.month - 1 + i
  let y := d.year + tm / 12
  let m := tm % 12 + 1
  { year := y, month := m, day := min d.day (daysInMonth y m) }

/-- The calendar successor of a date. -/
def nextDay (d : PyDate) : PyDate :=
  if d.day < daysInMonth d.year d.month then { d with day := d.day + 1 }
  else if d.month < 12 then { year := d.year, month := d.month + 1, day := 1 }
  else { year := d.year + 1, month := 1, day := 1 }

/-- The calendar predecessor of a date. -/
def prevDay (d : PyDate) : PyDate :=
  if 1 < d.day then { d with day := d.day - 1 }
  else if 1 < d.month then
    { year := d.year, month := d.month - 1, day := daysInMonth d.year (d.month - 1) }
  else { year := d.year - 1, month := 12, day := daysInMonth (d.year - 1) 12 }

/-- `date + timedelta(days=n)`. -/
def addDays : PyDate → Nat → PyDate
  | d, 0 => d
  | d, n + 1 => addDays (nextDay d) n

/-- `date - timedelta(days=n)`. -/
def subDays : PyDate → Nat → PyDate
  | d, 0 => d
  | d, n + 1 => subDays (prevDay d) n

/-- The end-of-month computation of `forecast_balance`:
`next_month = target.replace(day=28) + timedelta(days=4)` followed by
`next_month - timedelta(days=next_month.day)`. -/
def endOfMonthTrick (d : PyDate) : PyDate :=
  let next_month := addDays { year := d.year, month := d.month, day := 28 } 4
  subDays next_month next_month.day

/-- The last calendar day of the month of `d`. -/
def endOfMonth (d : PyDate) : PyDate :=
  { year := d.year, month := d.month, day := daysInMonth d.year d.month }

theorem endOfMonthTrick_shape (d : PyDate) :
    endOfMonthTrick d
      = subDays (addDays { year := d.year, month := d.month, day := 28 } 4)
          (addDays { year := d.year, month := d.month, day := 28 } 4).day := rfl

theorem addDays_succ (d : PyDate) (n : Nat) :
    addDays d (n + 1) = addDays (nextDay d) n := rfl

set_option maxHeartbeats 2000000 in
theorem endOfMonthTrick_eq (d : PyDate) (h1 : 1 ≤ d.month) (h2 : d.month ≤ 12) :
    endOfMonthTrick d = endOfMonth d := by
  obtain ⟨y, m, day⟩ := d
  have h1' : 1 ≤ m := h1
  have h2' : m ≤ 12 := h2
  clear h1 h2
  interval_cases m
  · rw [endOfMonthTrick_shape,
      show addDays { year := y, month := 1, day := 28 } 4 = ⟨y, 2, 1⟩ from rfl]
    rfl
  · cases hy : isLeapYear y
    · have hd : daysInMonth y 2 = 28 := by simp [daysInMonth, hy]
      have s1 : nextDay ⟨y, 2, 28⟩ = ⟨y, 3, 1⟩ := by simp [nextDay, hd]
      have ha : addDays { year := y, month := 2, day := 28 } 4 = ⟨y, 3, 4⟩ := by
        rw [show (4 : Nat) = 3 + 1 from rfl, addDays_succ, s1]
        rfl
      rw [endOfMonthTrick_shape, ha]
      rfl
    · have hd : daysInMonth y 2 = 29 := by simp [daysInMonth, hy]
      have s1 : nextDay ⟨y, 2, 28⟩ = ⟨y, 2, 29⟩ := by simp [nextDay, hd]
      have s2 : nextDay ⟨y, 2, 29⟩ = ⟨y, 3, 1⟩ := by simp [nextDay, hd]
      have ha : addDays { year := y, month := 2, day := 28 } 4 = ⟨y, 3, 3⟩ := by
        rw [show (4 : Nat) = 3 + 1 from rfl, addDays_succ, s1,
          show (3 : Nat) = 2 + 1 from rfl, addDays_succ, s2]
        rfl
      rw [endOfMonthTrick_shape, ha]
      rfl
  · rw [endOfMonthTrick_shape,
      show addDays { year := y, month := 3, day := 28 } 4 = ⟨y, 4, 1⟩ from rfl]
    rfl
  · rw [endOfMonthTrick_shape,
      show addDays { year := y, month := 4, day := 28 } 4 = ⟨y, 5, 2⟩ from rfl]
    rfl
  · rw [endOfMonthTrick_shape,
      show addDays { year := y, month := 5, day := 28 } 4 = ⟨y, 6, 1⟩ from rfl]
    rfl
  · rw [endOfMonthTrick_shape,
      show addDays { year := y, month := 6, day := 28 } 4 = ⟨y, 7, 2⟩ from rfl]
    rfl
  · rw [endOfMonthTrick_shape,
      show addDays { year := y, month := 7, day := 28 } 4 = ⟨y, 8, 1⟩ from rfl]
    rfl
  · rw [endOfMonthTrick_shape,
      show addDays { year := y, month := 8, day := 28 } 4 = ⟨y, 9, 1⟩ from rfl]
    rfl
  · rw [endOfMonthTrick_shape,
      show addDays { year := y, month := 9, day := 28 } 4 = ⟨y, 10, 2⟩ from rfl]
    rfl
  · rw [endOfMonthTrick_shape,
      show addDays { year := y, month := 10, day := 28 } 4 = ⟨y, 11, 1⟩ from rfl]
    rfl
  · rw [endOfMonthTrick_shape,
      show addDays { year := y, month := 11, day := 28 } 4 = ⟨y, 12, 2⟩ from rfl]
    rfl
  · rw [endOfMonthTrick_shape,
      show addDays { year := y, month := 12, day := 28 } 4 = ⟨y + 1, 1, 1⟩ from rfl]
    rfl

theorem addMonths_month_bounds (d : PyDate) (i : Nat) :
    1 ≤ (addMonths d i).month ∧ (addMonths d i).month ≤ 12 := by
  unfold addMonths
  simp only
  omega

/-- Zero-padded two-digit decimal rendering (`%m`, `%d`). -/
def pad2 (n : Nat) : String := if n < 10 then "0" ++ toString n else toString n

/-- Zero-padded four-digit decimal rendering (`%Y`). -/
def pad4 (n : Nat) : String :=
  if n < 10 then "000" ++ toString n
  else if n < 100 then "00" ++ toString n
  else if n < 1000 then "0" ++ toString n
  else toString n

/-- `strftime('%Y-%m')`. -/
def fmtYM (d : PyDate) : String := pad4 d.year ++ "-" ++ pad2 d.month

/-- `strftime('%Y-%m-%d')`. -/
def fmtYMD (d : PyDate) : String := fmtYM d ++ "-" ++ pad2 d.day

/-- Python's `s.startswith(pre)`. -/
def startsWithB (s pre : String) : Bool := pre.data.isPrefixOf s.data

/-- One entry of the forecast result. -/
structure ForecastEntry where
  month : String
  date : String
  balance : Int
  big_items : List Transaction
deriving DecidableEq, Repr

/-- Body of the `for i in range(months_ahead + 1)` loop of
`forecast_balance`. -/
def forecastEntry (data : Ledger) (today : PyDate) (i : Nat) : ForecastEntry :=
  let target := addMonths today i
  let target_date := if i = 0 then fmtYMD today else fmtYMD (endOfMonthTrick target)
  let month_str := fmtYM target
  { month := month_str
    date := target_date
    balance := get_balance_at_date data target_date
    big_items := data.transactions.filter fun t =>
      startsWithB t.date month_str && decide (100000 ≤ t.amount) }

/-- `forecast_balance` from `okane_analyzer.py`; `datetime.now()` is taken as
the `today` parameter. -/
def forecast_balance (data : Ledger) (today : PyDate) (months_ahead : Nat) :
    List ForecastEntry :=
  (List.range (months_ahead + 1)).map (forecastEntry data today)

/-- C8: `forecast_balance` returns exactly `months_ahead + 1` entries, the
`i`-th targeting today for `i = 0` and the last calendar day of the month
`i` months from today for `i > 0`, with balance `balanceAt` of that target
date and large items exactly the transactions of that calendar month with
amount at least 100000; for `months_ahead = 0` it returns one entry whose
balance is the balance at today. -/
theorem claim_C8 (data : Ledger) (today : PyDate) (months_ahead : Nat)
    (_hv : today.valid) :
    (forecast_balance data today months_ahead).length = months_ahead + 1
    ∧ (∀ i, i < months_ahead + 1 →
        (forecast_balance data today months_ahead)[i]? = some
          { month := fmtYM (addMonths today i)
            date := if i = 0 then fmtYMD today else fmtYMD (endOfMonth (addMonths today i))
            balance := get_balance_at_date data
              (if i = 0 then fmtYMD today else fmtYMD (endOfMonth (addMonths today i)))
            big_items := data.transactions.filter fun t =>
              startsWithB t.date (fmtYM (addMonths today i))
                && decide (100000 ≤ t.amount) })
    ∧ (forecast_balance data today 0).length = 1
    ∧ (∀ e ∈ forecast_balance data today 0,
        e.balance = get_balance_at_date data (fmtYMD today)) := by
  have htrick : ∀ i : Nat,
      endOfMonthTrick (addMonths today i) = endOfMonth (addMonths today i) := fun i =>
    endOfMonthTrick_eq _ (addMonths_month_bounds today i).1 (addMonths_month_bounds today i).2
  have hentry : ∀ i : Nat, forecastEntry data today i =
      { month := fmtYM (addMonths today i)
        date := if i = 0 then fmtYMD today else fmtYMD (endOfMonth (addMonths today i))
        balance := get_balance_at_date data
          (if i = 0 then fmtYMD today else fmtYMD (endOfMonth (addMonths today i)))
        big_items := data.transactions.filter fun t =>
          startsWithB t.date (fmtYM (addMonths today i))
            && decide (100000 ≤ t.amount) } := by
    intro i
    simp only [forecastEntry, htrick i]
  refine ⟨?_, ?_, ?_, ?_⟩
  · simp [forecast_balance]
  · intro i hi
    unfold forecast_balance
    rw [List.getElem?_map, List.getElem?_range hi, Option.map_some', hentry i]
  · simp [forecast_balance]
  · intro e he
    unfold forecast_balance at he
    rw [List.range_succ, List.range_zero] at he
    simp only [List.nil_append, List.map_cons, List.map_nil, List.mem_singleton] at he
    subst he
    rw [hentry 0]
    simp

theorem claim_C8_witness :
    (forecast_balance exampleLedger { year := 2026, month := 1, day := 15 } 0).length
      = 0 + 1 :=
  (claim_C8 exampleLedger { year := 2026, month := 1, day := 15 } 0 (by decide)).1

end Okane
